import Mathlib

/-!
# Alignment comparison engine: shallow embedding

A shallow embedding of the alignment comparison engine of
`alignment_viewer_script.py` (whose `find_differences` is textually identical
to the one in `alignment_viewer_with_aligner.py`):

* `find_differences` — the Position Classifier: labels each column of the
  alignment as variant / gapped / ambiguous, returning the three index lists
  `(differences, gap_positions, ambiguous_positions)` in source order.
* `calculate_pairwise_distances` — the Pairwise Distance Engine: for every
  unordered pair of sequences (forward double iteration `i < j`), counts
  usable positions and SNPs, derives an identity percentage, and fills a
  symmetric distance matrix.

Modelling conventions:
* A Python string is a `List Char`; `str.upper()` on a single character is
  `Char.toUpper` (the sequences handled by the program are ASCII).
* The alignment (a Python `dict` preserving insertion order with unique keys)
  is a `List (String × List Char)` of (identifier, sequence) entries.
* Fallible indexing (`seq[pos]`, which can raise `IndexError`) makes the
  embedded functions `Option`-valued: `none` models an uncaught exception.
* The Python `float` identity is modelled exactly over `ℚ`.
* The distance matrix (a dict of dicts written twice per pair) is modelled as
  the list of its writes in program order; `lastWrite` is dict lookup with
  last-write-wins semantics.
-/

/-- `ambiguity_codes = set('RYSWKMBDHVN')` from the source. -/
def ambiguity_codes : List Char := ['R', 'Y', 'S', 'W', 'K', 'M', 'B', 'D', 'H', 'V', 'N']

/-- One element of the `pairwise_distances` list built by
`calculate_pairwise_distances`: the dict
`{'seq1': …, 'seq2': …, 'snps': …, 'usable_positions': …, 'identity': …}`. -/
structure PairRecord where
  seq1 : String
  seq2 : String
  snps : Nat
  usable_positions : Nat
  identity : ℚ
  deriving DecidableEq, Repr

/-- One iteration of the inner `for pos in range(len(seq1))` loop of
`calculate_pairwise_distances`, acting on the accumulator
`(usable_positions, snps)`: uppercase both bases, skip gaps, skip ambiguity
codes, else count the position as usable and count a SNP when the bases
differ. -/
def pairStep (c1 c2 : Char) (acc : Nat × Nat) : Nat × Nat :=
  let base1 := c1.toUpper
  let base2 := c2.toUpper
  if base1 = '-' ∨ base2 = '-' then acc
  else if base1 ∈ ambiguity_codes ∨ base2 ∈ ambiguity_codes then acc
  else (acc.1 + 1, if base1 ≠ base2 then acc.2 + 1 else acc.2)

/-- The inner column loop of `calculate_pairwise_distances`: iterate over the
positions of `seq1`, reading `seq2` at the same position.  Reading past the
end of `seq2` is Python's `IndexError`, i.e. `none`. -/
def pairScan : List Char → List Char → Nat × Nat → Option (Nat × Nat)
  | [], _, acc => some acc
  | _ :: _, [], _ => none
  | c1 :: t1, c2 :: t2, acc => pairScan t1 t2 (pairStep c1 c2 acc)

/-- The body of the double loop of `calculate_pairwise_distances` for one pair
of (identifier, sequence) entries: run the column loop from `(0, 0)` and build
the pairwise record, with `identity = 100 * (1 - snps / usable_positions)`
when `usable_positions > 0` and `0` otherwise. -/
def processPair (pr : (String × List Char) × (String × List Char)) : Option PairRecord :=
  match pairScan pr.1.2 pr.2.2 (0, 0) with
  | none => none
  | some (usable, snps) =>
      some { seq1 := pr.1.1, seq2 := pr.2.1, snps := snps,
             usable_positions := usable,
             identity := if usable > 0 then 100 * (1 - (snps : ℚ) / (usable : ℚ)) else 0 }

/-- The enumeration order of the double loop
`for i in range(n): for j in range(i+1, n)`: all pairs of list elements at
indices `i < j`, in forward order. -/
def forwardPairs {α : Type} : List α → List (α × α)
  | [] => []
  | x :: xs => xs.map (fun y => (x, y)) ++ forwardPairs xs

/-- Run `processPair` over the pair list in order, failing (as the Python loop
would raise) as soon as one pair fails. -/
def collectRecords : List ((String × List Char) × (String × List Char)) →
    Option (List PairRecord)
  | [] => some []
  | pr :: rest =>
      match processPair pr, collectRecords rest with
      | some r, some rs => some (r :: rs)
      | _, _ => none

/-- The writes performed on `distance_matrix`: for each pairwise record, in
record order, `distance_matrix[name1][name2] = snps` then
`distance_matrix[name2][name1] = snps`. -/
def matrixOf (records : List PairRecord) : List ((String × String) × Nat) :=
  records.foldr
    (fun r m => ((r.seq1, r.seq2), r.snps) :: ((r.seq2, r.seq1), r.snps) :: m) []

/-- Dict lookup over a list of writes, last write wins: the value the Python
dict-of-dicts holds for a key after all the writes are performed. -/
def lastWrite : List ((String × String) × Nat) → String × String → Option Nat
  | [], _ => none
  | (k, v) :: rest, q =>
      match lastWrite rest q with
      | some v2 => some v2
      | none => if k = q then some v else none

/-- `calculate_pairwise_distances(sequences)` from the source: returns
`(pairwise_distances, distance_matrix, seq_names)`, with the matrix given as
its write list. -/
def calculate_pairwise_distances (sequences : List (String × List Char)) :
    Option (List PairRecord × List ((String × String) × Nat) × List String) :=
  let seq_names := sequences.map Prod.fst
  match collectRecords (forwardPairs sequences) with
  | none => none
  | some records => some (records, matrixOf records, seq_names)

/-- The list comprehension `[seq[pos].upper() for seq in seq_list]` of
`find_differences`: the uppercased bases of column `pos`, or `none` when some
sequence is too short (`IndexError`). -/
def columnBases : List (List Char) → Nat → Option (List Char)
  | [], _ => some []
  | s :: rest, pos =>
      match s.get? pos, columnBases rest pos with
      | some c, some cs => some (c.toUpper :: cs)
      | _, _ => none

/-- The four-way classification a column of `find_differences` can take. -/
inductive ColClass
  | gap
  | ambig
  | variant
  | invariant
  deriving DecidableEq, Repr

/-- The branch structure of the `find_differences` loop body on the uppercased
bases of one column: gap if `-` occurs (highest priority), else ambiguous if
an ambiguity code occurs, else variant if the set of distinct bases has more
than one member, else invariant.  `bases.dedup` plays the role of
`set(bases)`. -/
def classifyCol (bases : List Char) : ColClass :=
  if '-' ∈ bases then ColClass.gap
  else if bases.any (fun b => ambiguity_codes.contains b) then ColClass.ambig
  else if 1 < bases.dedup.length then ColClass.variant
  else ColClass.invariant

/-- The `for pos in range(align_len)` loop of `find_differences`, appending
each position to the list its classification selects.  The result triple is
`(differences, gap_positions, ambiguous_positions)` in source order. -/
def classifyPositions (seqs : List (List Char)) :
    List Nat → Option (List Nat × List Nat × List Nat)
  | [] => some ([], [], [])
  | pos :: rest =>
      match columnBases seqs pos, classifyPositions seqs rest with
      | some bases, some (diffs, gaps, ambs) =>
          match classifyCol bases with
          | ColClass.gap => some (diffs, pos :: gaps, ambs)
          | ColClass.ambig => some (diffs, gaps, pos :: ambs)
          | ColClass.variant => some (pos :: diffs, gaps, ambs)
          | ColClass.invariant => some (diffs, gaps, ambs)
      | _, _ => none

/-- `find_differences(sequences)` from the source: empty alignment returns
three empty lists, otherwise the loop runs over `range(len(seq_list[0]))`. -/
def find_differences (sequences : List (String × List Char)) :
    Option (List Nat × List Nat × List Nat) :=
  match sequences with
  | [] => some ([], [], [])
  | (_, s0) :: _ => classifyPositions (sequences.map Prod.snd) (List.range s0.length)

/-- The uppercased base of sequence `s` at column `pos` (the column indices
used by the spec-level counts are always in bounds, so the default is
irrelevant). -/
def baseAt (s : List Char) (pos : Nat) : Char := (s.getD pos ' ').toUpper

/-- Spec-level predicate: column `pos` is usable for the pair `(s1, s2)` —
after uppercasing, neither base is `-` and neither base is an ambiguity
code. -/
def usableAt (s1 s2 : List Char) (pos : Nat) : Bool :=
  !(baseAt s1 pos == '-') && !(baseAt s2 pos == '-') &&
  !(ambiguity_codes.contains (baseAt s1 pos)) &&
  !(ambiguity_codes.contains (baseAt s2 pos))

/-- Spec-level predicate: column `pos` is usable and the two uppercased bases
differ (a SNP). -/
def snpAt (s1 s2 : List Char) (pos : Nat) : Bool :=
  usableAt s1 s2 pos && (baseAt s1 pos != baseAt s2 pos)

/-- Spec-level closed form of one pairwise record over alignment length `L`:
`usable_positions` and `snps` count columns of `range L`, and the identity is
derived from them. -/
def recordOf (L : Nat) (pr : (String × List Char) × (String × List Char)) : PairRecord :=
  let usable := (List.range L).countP (usableAt pr.1.2 pr.2.2)
  let snps := (List.range L).countP (snpAt pr.1.2 pr.2.2)
  { seq1 := pr.1.1, seq2 := pr.2.1, snps := snps, usable_positions := usable,
    identity := if usable > 0 then 100 * (1 - (snps : ℚ) / (usable : ℚ)) else 0 }

/-- The classification `find_differences` gives to column `pos` (meaningful
whenever the column read succeeds; the `none` fallback is never used under the
rectangularity precondition). -/
def colClassAt (seqs : List (List Char)) (pos : Nat) : ColClass :=
  match columnBases seqs pos with
  | some bases => classifyCol bases
  | none => ColClass.invariant

/-- The worked example of the spec: `{"s1": "ACGT-N", "s2": "ACTTAN"}`. -/
def exampleAlignment : List (String × List Char) :=
  [("s1", "ACGT-N".toList), ("s2", "ACTTAN".toList)]

/-- The single pairwise record the engine produces on `exampleAlignment`. -/
def exampleRecord : PairRecord :=
  { seq1 := "s1", seq2 := "s2", snps := 1, usable_positions := 4, identity := 75 }

/-! ## Character-level lemmas -/

theorem toNat_ofNat_valid {n : Nat} (h : n.isValidChar) : (Char.ofNat n).toNat = n := by
  rw [Char.ofNat, dif_pos h]
  rfl

/-- `Char.toUpper` maps no character to `-` except `-` itself. -/
theorem toUpper_eq_dash_iff (c : Char) : c.toUpper = '-' ↔ c = '-' := by
  constructor
  · intro h
    rw [Char.toUpper] at h
    by_cases hc : c.toNat ≥ 97 ∧ c.toNat ≤ 122
    · rw [if_pos hc] at h
      have hv : (c.toNat - 32).isValidChar := Or.inl (by omega)
      have := congrArg Char.toNat h
      rw [toNat_ofNat_valid hv] at this
      have hd : ('-' : Char).toNat = 45 := by decide
      omega
    · rw [if_neg hc] at h
      exact h
  · intro h
    subst h
    decide

/-! ## The inner column loop of the Pairwise Distance Engine -/

theorem comp_succ_usable (c1 c2 : Char) (t1 t2 : List Char) :
    (usableAt (c1 :: t1) (c2 :: t2)) ∘ Nat.succ = usableAt t1 t2 := rfl

theorem comp_succ_snp (c1 c2 : Char) (t1 t2 : List Char) :
    (snpAt (c1 :: t1) (c2 :: t2)) ∘ Nat.succ = snpAt t1 t2 := rfl

/-- Closed form of the inner column loop: when `seq2` is at least as long as
`seq1` (so no `IndexError` occurs), `pairScan` adds to the accumulator the
number of usable columns and the number of SNP columns among the positions of
`seq1`. -/
theorem pairScan_eq (s1 : List Char) : ∀ (s2 : List Char), s1.length ≤ s2.length →
    ∀ acc : Nat × Nat, pairScan s1 s2 acc =
      some (acc.1 + (List.range s1.length).countP (usableAt s1 s2),
            acc.2 + (List.range s1.length).countP (snpAt s1 s2)) := by
  induction s1 with
  | nil => intro s2 h acc; simp [pairScan]
  | cons c1 t1 ih =>
    intro s2 h acc
    cases s2 with
    | nil => simp at h
    | cons c2 t2 =>
      have hlen : t1.length ≤ t2.length := by simpa using h
      have hU : (List.range (c1 :: t1).length).countP (usableAt (c1 :: t1) (c2 :: t2))
          = (List.range t1.length).countP (usableAt t1 t2)
            + (if usableAt (c1 :: t1) (c2 :: t2) 0 then 1 else 0) := by
        rw [List.length_cons, List.range_succ_eq_map, List.countP_cons,
            List.countP_map, comp_succ_usable]
      have hS : (List.range (c1 :: t1).length).countP (snpAt (c1 :: t1) (c2 :: t2))
          = (List.range t1.length).countP (snpAt t1 t2)
            + (if snpAt (c1 :: t1) (c2 :: t2) 0 then 1 else 0) := by
        rw [List.length_cons, List.range_succ_eq_map, List.countP_cons,
            List.countP_map, comp_succ_snp]
      rw [hU, hS]
      show pairScan t1 t2 (pairStep c1 c2 acc) = _
      rw [ih t2 hlen (pairStep c1 c2 acc)]
      by_cases hgap : c1.toUpper = '-' ∨ c2.toUpper = '-'
      · have hp : pairStep c1 c2 acc = acc := by simp [pairStep, hgap]
        have hu0 : usableAt (c1 :: t1) (c2 :: t2) 0 = false := by
          rcases hgap with hg | hg <;>
            simp [usableAt, baseAt, hg]
        have hs0 : snpAt (c1 :: t1) (c2 :: t2) 0 = false := by
          simp [snpAt, hu0]
        rw [hp, hu0, hs0]
        simp
      · by_cases hamb : c1.toUpper ∈ ambiguity_codes ∨ c2.toUpper ∈ ambiguity_codes
        · have hp : pairStep c1 c2 acc = acc := by simp [pairStep, hgap, hamb]
          have hu0 : usableAt (c1 :: t1) (c2 :: t2) 0 = false := by
            rcases hamb with ha | ha <;>
              simp [usableAt, baseAt, List.contains, ha]
          have hs0 : snpAt (c1 :: t1) (c2 :: t2) 0 = false := by
            simp [snpAt, hu0]
          rw [hp, hu0, hs0]
          simp
        · push_neg at hgap hamb
          have hp : pairStep c1 c2 acc
              = (acc.1 + 1, if c1.toUpper ≠ c2.toUpper then acc.2 + 1 else acc.2) := by
            simp [pairStep, hgap.1, hgap.2, hamb.1, hamb.2]
          have hu0 : usableAt (c1 :: t1) (c2 :: t2) 0 = true := by
            simp [usableAt, baseAt, List.contains, hgap.1, hgap.2, hamb.1, hamb.2]
          have hs0 : snpAt (c1 :: t1) (c2 :: t2) 0 = (c1.toUpper != c2.toUpper) := by
            simp [snpAt, hu0, baseAt]
          rw [hp, hu0, hs0]
          by_cases hne : c1.toUpper = c2.toUpper
          · simp only [hne, bne_self_eq_false, Bool.false_eq_true, if_false,
              ite_not, if_true, Option.some.injEq, Prod.mk.injEq, ne_eq, not_true_eq_false]
            refine ⟨by omega, by omega⟩
          · have hbne : (c1.toUpper != c2.toUpper) = true := by
              simpa [bne_iff_ne] using hne
            simp only [hbne, if_true, hne, ite_not, if_neg hne, Option.some.injEq,
              Prod.mk.injEq, ne_eq, not_false_eq_true]
            refine ⟨by omega, by omega⟩

/-! ## The double loop of the Pairwise Distance Engine -/

theorem mem_of_mem_forwardPairs {α : Type} {a b : α} :
    ∀ {l : List α}, (a, b) ∈ forwardPairs l → a ∈ l ∧ b ∈ l := by
  intro l
  induction l with
  | nil => intro h; simp [forwardPairs] at h
  | cons x xs ih =>
    intro h
    rw [forwardPairs, List.mem_append] at h
    rcases h with h | h
    · rw [List.mem_map] at h
      obtain ⟨y, hy, hxy⟩ := h
      injection hxy with hx hy2
      subst hx
      subst hy2
      exact ⟨List.mem_cons_self _ _, List.mem_cons_of_mem _ hy⟩
    · have := ih h
      exact ⟨List.mem_cons_of_mem x this.1, List.mem_cons_of_mem x this.2⟩

theorem mem_forwardPairs_of_ne {α : Type} {a b : α} :
    ∀ {l : List α}, a ∈ l → b ∈ l → a ≠ b →
      (a, b) ∈ forwardPairs l ∨ (b, a) ∈ forwardPairs l := by
  intro l
  induction l with
  | nil => intro ha; simp at ha
  | cons x xs ih =>
    intro ha hb hne
    rcases List.mem_cons.mp ha with rfl | ha'
    · rcases List.mem_cons.mp hb with rfl | hb'
      · exact absurd rfl hne
      · left
        rw [forwardPairs, List.mem_append]
        left
        exact List.mem_map.mpr ⟨b, hb', rfl⟩
    · rcases List.mem_cons.mp hb with rfl | hb'
      · right
        rw [forwardPairs, List.mem_append]
        left
        exact List.mem_map.mpr ⟨a, ha', rfl⟩
      · rcases ih ha' hb' hne with h | h
        · left
          rw [forwardPairs, List.mem_append]
          right
          exact h
        · right
          rw [forwardPairs, List.mem_append]
          right
          exact h

theorem forwardPairs_length {α : Type} : ∀ l : List α,
    (forwardPairs l).length = l.length.choose 2 := by
  intro l
  induction l with
  | nil => rfl
  | cons x xs ih =>
    rw [forwardPairs, List.length_append, List.length_map, ih, List.length_cons,
        Nat.choose_succ_succ, Nat.choose_one_right, Nat.add_comm]

theorem processPair_eq {L : Nat} (pr : (String × List Char) × (String × List Char))
    (h1 : pr.1.2.length = L) (h2 : pr.2.2.length = L) :
    processPair pr = some (recordOf L pr) := by
  unfold processPair
  rw [pairScan_eq pr.1.2 pr.2.2 (by omega) (0, 0)]
  simp [recordOf, h1]

theorem collectRecords_eq {L : Nat} :
    ∀ l : List ((String × List Char) × (String × List Char)),
      (∀ pr ∈ l, pr.1.2.length = L ∧ pr.2.2.length = L) →
      collectRecords l = some (l.map (recordOf L)) := by
  intro l
  induction l with
  | nil => intro _; rfl
  | cons pr rest ih =>
    intro h
    have hpr := h pr (List.mem_cons_self pr rest)
    rw [collectRecords, processPair_eq pr hpr.1 hpr.2,
        ih (fun q hq => h q (List.mem_cons_of_mem pr hq))]
    rfl

/-- Closed form of `calculate_pairwise_distances` on a rectangular alignment:
the record list is `recordOf` mapped over the forward pair enumeration, and
the matrix is its write list. -/
theorem calc_eq_of_rect (sequences : List (String × List Char)) (L : Nat)
    (hrect : ∀ pr ∈ sequences, pr.2.length = L) :
    calculate_pairwise_distances sequences =
      some ((forwardPairs sequences).map (recordOf L),
            matrixOf ((forwardPairs sequences).map (recordOf L)),
            sequences.map Prod.fst) := by
  unfold calculate_pairwise_distances
  rw [collectRecords_eq (forwardPairs sequences) (fun pr hpr => by
    have hm := mem_of_mem_forwardPairs hpr
    exact ⟨hrect pr.1 hm.1, hrect pr.2 hm.2⟩)]

/-! ## The Position Classifier loop -/

theorem columnBases_eq (pos : Nat) :
    ∀ seqs : List (List Char), (∀ s ∈ seqs, pos < s.length) →
      columnBases seqs pos = some (seqs.map (fun s => (s.getD pos ' ').toUpper)) := by
  intro seqs
  induction seqs with
  | nil => intro _; rfl
  | cons s rest ih =>
    intro h
    have hs : pos < s.length := h s (List.mem_cons_self s rest)
    rw [columnBases, List.get?_eq_get hs,
        ih (fun q hq => h q (List.mem_cons_of_mem s hq))]
    simp [List.getElem?_eq_getElem hs]

theorem classifyPositions_eq (seqs : List (List Char)) :
    ∀ ps : List Nat, (∀ p ∈ ps, (columnBases seqs p).isSome) →
      classifyPositions seqs ps = some
        (ps.filter (fun p => colClassAt seqs p == ColClass.variant),
         ps.filter (fun p => colClassAt seqs p == ColClass.gap),
         ps.filter (fun p => colClassAt seqs p == ColClass.ambig)) := by
  intro ps
  induction ps with
  | nil => intro _; rfl
  | cons pos rest ih =>
    intro h
    obtain ⟨bases, hbases⟩ :=
      Option.isSome_iff_exists.mp (h pos (List.mem_cons_self pos rest))
    have hrest := ih (fun q hq => h q (List.mem_cons_of_mem pos hq))
    have hclass : colClassAt seqs pos = classifyCol bases := by
      rw [colClassAt, hbases]
    rw [classifyPositions, hbases, hrest]
    cases hc : classifyCol bases <;>
      simp [List.filter_cons, hclass, hc]

/-- A list's set of distinct members has more than one element iff the list
has two differing members. -/
theorem one_lt_dedup_length_iff {l : List Char} :
    1 < l.dedup.length ↔ ∃ a ∈ l, ∃ b ∈ l, a ≠ b := by
  constructor
  · intro h
    obtain ⟨x, y, rest, hd⟩ : ∃ x y rest, l.dedup = x :: y :: rest := by
      match hdd : l.dedup with
      | [] => rw [hdd] at h; simp at h
      | [x] => rw [hdd] at h; simp at h
      | x :: y :: rest => exact ⟨x, y, rest, rfl⟩
    have hnd := l.nodup_dedup
    rw [hd] at hnd
    have hxy : x ≠ y := by
      intro hEq
      subst hEq
      simp [List.nodup_cons] at hnd
    refine ⟨x, ?_, y, ?_, hxy⟩
    · rw [← List.mem_dedup, hd]
      simp
    · rw [← List.mem_dedup, hd]
      simp
  · rintro ⟨a, ha, b, hb, hab⟩
    by_contra hle
    push_neg at hle
    have ha' := List.mem_dedup.mpr ha
    have hb' := List.mem_dedup.mpr hb
    match hdd : l.dedup with
    | [] =>
        rw [hdd] at ha'
        simp at ha'
    | [x] =>
        rw [hdd] at ha' hb'
        simp at ha' hb'
        exact hab (ha'.trans hb'.symm)
    | x :: y :: rest =>
        rw [hdd] at hle
        simp at hle

/-- Gap test on the uppercased bases of a column, as an existential over the
sequences (using that only `-` uppercases to `-`). -/
theorem dash_mem_column_iff (seqs : List (List Char)) (pos : Nat) :
    '-' ∈ seqs.map (fun s => (s.getD pos ' ').toUpper) ↔
      ∃ s ∈ seqs, s.getD pos ' ' = '-' := by
  rw [List.mem_map]
  constructor
  · rintro ⟨s, hs, hEq⟩
    exact ⟨s, hs, (toUpper_eq_dash_iff _).mp hEq⟩
  · rintro ⟨s, hs, hEq⟩
    exact ⟨s, hs, (toUpper_eq_dash_iff _).mpr hEq⟩

/-- Ambiguity test on the uppercased bases of a column, as an existential. -/
theorem ambig_column_iff (seqs : List (List Char)) (pos : Nat) :
    ((seqs.map (fun s => (s.getD pos ' ').toUpper)).any
        (fun b => ambiguity_codes.contains b) = true) ↔
      ∃ s ∈ seqs, (s.getD pos ' ').toUpper ∈ ambiguity_codes := by
  rw [List.any_eq_true]
  constructor
  · rintro ⟨b, hb, hc⟩
    obtain ⟨s, hs, rfl⟩ := List.mem_map.mp hb
    exact ⟨s, hs, by simpa [List.contains] using hc⟩
  · rintro ⟨s, hs, hc⟩
    exact ⟨(s.getD pos ' ').toUpper, List.mem_map.mpr ⟨s, hs, rfl⟩,
      by simpa [List.contains] using hc⟩

/-- Variation test on the uppercased bases of a column, as an existential. -/
theorem variant_column_iff (seqs : List (List Char)) (pos : Nat) :
    (1 < (seqs.map (fun s => (s.getD pos ' ').toUpper)).dedup.length) ↔
      ∃ s1 ∈ seqs, ∃ s2 ∈ seqs, (s1.getD pos ' ').toUpper ≠ (s2.getD pos ' ').toUpper := by
  rw [one_lt_dedup_length_iff]
  constructor
  · rintro ⟨a, ha, b, hb, hab⟩
    obtain ⟨s1, hs1, rfl⟩ := List.mem_map.mp ha
    obtain ⟨s2, hs2, rfl⟩ := List.mem_map.mp hb
    exact ⟨s1, hs1, s2, hs2, hab⟩
  · rintro ⟨s1, hs1, s2, hs2, hne⟩
    exact ⟨_, List.mem_map.mpr ⟨s1, hs1, rfl⟩, _, List.mem_map.mpr ⟨s2, hs2, rfl⟩, hne⟩

theorem classifyCol_eq_gap_iff (bases : List Char) :
    classifyCol bases = ColClass.gap ↔ '-' ∈ bases := by
  rw [classifyCol]
  split_ifs with h1 h2 h3 <;> simp [h1, *]

theorem any_contains_iff (bases : List Char) :
    (bases.any (fun b => ambiguity_codes.contains b) = true) ↔
      ∃ b ∈ bases, b ∈ ambiguity_codes := by
  rw [List.any_eq_true]
  simp [List.contains]

theorem classifyCol_eq_ambig_iff (bases : List Char) :
    classifyCol bases = ColClass.ambig ↔
      '-' ∉ bases ∧ ∃ b ∈ bases, b ∈ ambiguity_codes := by
  rw [classifyCol]
  split_ifs with h1 h2 h3
  · simp [h1]
  · simp [h1, (any_contains_iff bases).mp h2]
  · simp [h1, (not_congr (any_contains_iff bases)).mp h2]
  · simp [h1, (not_congr (any_contains_iff bases)).mp h2]

theorem classifyCol_eq_variant_iff (bases : List Char) :
    classifyCol bases = ColClass.variant ↔
      '-' ∉ bases ∧ ¬(∃ b ∈ bases, b ∈ ambiguity_codes) ∧
        1 < bases.dedup.length := by
  rw [classifyCol]
  split_ifs with h1 h2 h3
  · simp [h1]
  · simp [h1, (any_contains_iff bases).mp h2]
  · simp [h1, (not_congr (any_contains_iff bases)).mp h2, h3]
  · simp [h1, (not_congr (any_contains_iff bases)).mp h2, h3]

theorem colClassAt_eq (seqs : List (List Char)) (p : Nat)
    (h : ∀ s ∈ seqs, p < s.length) :
    colClassAt seqs p = classifyCol (seqs.map (fun s => (s.getD p ' ').toUpper)) := by
  rw [colClassAt, columnBases_eq p seqs h]

/-- Closed form of `find_differences` on a nonempty rectangular alignment:
each returned list selects from `range L` the positions of its class. -/
theorem find_differences_eq (sequences : List (String × List Char)) (L : Nat)
    (hrect : ∀ pr ∈ sequences, pr.2.length = L) (hne : sequences ≠ []) :
    find_differences sequences = some
      ((List.range L).filter
         (fun p => colClassAt (sequences.map Prod.snd) p == ColClass.variant),
       (List.range L).filter
         (fun p => colClassAt (sequences.map Prod.snd) p == ColClass.gap),
       (List.range L).filter
         (fun p => colClassAt (sequences.map Prod.snd) p == ColClass.ambig)) := by
  match sequences, hne with
  | (n0, s0) :: rest, _ =>
    have hs0 : s0.length = L := hrect (n0, s0) (List.mem_cons_self _ _)
    rw [find_differences, hs0]
    apply classifyPositions_eq
    intro p hp
    rw [columnBases_eq p _ (fun s hs => by
      obtain ⟨pr, hpr, rfl⟩ := List.mem_map.mp hs
      rw [hrect pr hpr]
      exact List.mem_range.mp hp)]
    rfl

theorem exists_map_iff {α β : Type} (l : List α) (f : α → β) (P : β → Prop) :
    (∃ b ∈ l.map f, P b) ↔ ∃ x ∈ l, P (f x) := by
  constructor
  · rintro ⟨b, hb, h⟩
    obtain ⟨x, hx, rfl⟩ := List.mem_map.mp hb
    exact ⟨x, hx, h⟩
  · rintro ⟨x, hx, h⟩
    exact ⟨f x, List.mem_map.mpr ⟨x, hx, rfl⟩, h⟩

/-- **C2**: on a rectangular alignment with at least one sequence, for every
column `p < L`, the Position Classifier records `p` as a gap position iff some
sequence has `-` at `p`; otherwise as ambiguous iff some sequence's uppercased
base at `p` is an ambiguity code; otherwise as variant iff two sequences have
different uppercased bases at `p`; otherwise `p` is in no set.  Gap takes
priority over ambiguity, which takes priority over variation. -/
theorem find_differences_classification
    (sequences : List (String × List Char)) (L : Nat)
    (hne : sequences ≠ []) (hrect : ∀ pr ∈ sequences, pr.2.length = L)
    (p : Nat) (hp : p < L) :
    ∃ d g a, find_differences sequences = some (d, g, a) ∧
      (p ∈ g ↔ ∃ pr ∈ sequences, pr.2.getD p ' ' = '-') ∧
      (p ∈ a ↔ ¬(∃ pr ∈ sequences, pr.2.getD p ' ' = '-') ∧
        ∃ pr ∈ sequences, (pr.2.getD p ' ').toUpper ∈ ambiguity_codes) ∧
      (p ∈ d ↔ ¬(∃ pr ∈ sequences, pr.2.getD p ' ' = '-') ∧
        ¬(∃ pr ∈ sequences, (pr.2.getD p ' ').toUpper ∈ ambiguity_codes) ∧
        ∃ pr1 ∈ sequences, ∃ pr2 ∈ sequences,
          (pr1.2.getD p ' ').toUpper ≠ (pr2.2.getD p ' ').toUpper) := by
  have hlen : ∀ s ∈ sequences.map Prod.snd, p < s.length := fun s hs => by
    obtain ⟨pr, hpr, rfl⟩ := List.mem_map.mp hs
    rw [hrect pr hpr]
    exact hp
  have hcc := colClassAt_eq (sequences.map Prod.snd) p hlen
  refine ⟨_, _, _, find_differences_eq sequences L hrect hne, ?_, ?_, ?_⟩
  · rw [List.mem_filter]
    simp only [List.mem_range, hp, true_and, beq_iff_eq]
    rw [hcc, classifyCol_eq_gap_iff, dash_mem_column_iff,
        exists_map_iff sequences Prod.snd]
  · rw [List.mem_filter]
    simp only [List.mem_range, hp, true_and, beq_iff_eq]
    rw [hcc, classifyCol_eq_ambig_iff]
    rw [show ('-' ∈ (sequences.map Prod.snd).map (fun s => (s.getD p ' ').toUpper)) ↔
          ∃ pr ∈ sequences, pr.2.getD p ' ' = '-' from
        (dash_mem_column_iff _ p).trans (exists_map_iff sequences Prod.snd _)]
    rw [exists_map_iff (sequences.map Prod.snd)
          (fun s : List Char => (s.getD p ' ').toUpper)
          (fun b => b ∈ ambiguity_codes),
        exists_map_iff sequences Prod.snd
          (fun s : List Char => (s.getD p ' ').toUpper ∈ ambiguity_codes)]
  · rw [List.mem_filter]
    simp only [List.mem_range, hp, true_and, beq_iff_eq]
    rw [hcc, classifyCol_eq_variant_iff]
    rw [show ('-' ∈ (sequences.map Prod.snd).map (fun s => (s.getD p ' ').toUpper)) ↔
          ∃ pr ∈ sequences, pr.2.getD p ' ' = '-' from
        (dash_mem_column_iff _ p).trans (exists_map_iff sequences Prod.snd _)]
    rw [exists_map_iff (sequences.map Prod.snd)
          (fun s : List Char => (s.getD p ' ').toUpper)
          (fun b => b ∈ ambiguity_codes),
        exists_map_iff sequences Prod.snd
          (fun s : List Char => (s.getD p ' ').toUpper ∈ ambiguity_codes),
        variant_column_iff,
        exists_map_iff sequences Prod.snd
          (fun s1 : List Char => ∃ s2 ∈ sequences.map Prod.snd,
            (s1.getD p ' ').toUpper ≠ (s2.getD p ' ').toUpper)]
    constructor
    · rintro ⟨h1, h2, pr1, hpr1, h3⟩
      rw [exists_map_iff sequences Prod.snd
        (fun s2 : List Char => (pr1.2.getD p ' ').toUpper ≠ (s2.getD p ' ').toUpper)] at h3
      exact ⟨h1, h2, pr1, hpr1, h3⟩
    · rintro ⟨h1, h2, pr1, hpr1, h3⟩
      refine ⟨h1, h2, pr1, hpr1, ?_⟩
      rw [exists_map_iff sequences Prod.snd
        (fun s2 : List Char => (pr1.2.getD p ' ').toUpper ≠ (s2.getD p ' ').toUpper)]
      exact h3

/-! ## Symmetry of the column predicates -/

theorem usableAt_comm (s1 s2 : List Char) (p : Nat) :
    usableAt s2 s1 p = usableAt s1 s2 p := by
  rw [usableAt, usableAt]
  cases (baseAt s1 p == '-') <;> cases (baseAt s2 p == '-') <;>
    cases (ambiguity_codes.contains (baseAt s1 p)) <;>
    cases (ambiguity_codes.contains (baseAt s2 p)) <;> rfl

theorem snpAt_comm (s1 s2 : List Char) (p : Nat) :
    snpAt s2 s1 p = snpAt s1 s2 p := by
  rw [snpAt, snpAt, usableAt_comm]
  by_cases h : baseAt s1 p = baseAt s2 p
  · rw [h]
  · have h1 : (baseAt s2 p != baseAt s1 p) = true := by
      simpa [bne_iff_ne] using Ne.symm h
    have h2 : (baseAt s1 p != baseAt s2 p) = true := by
      simpa [bne_iff_ne] using h
    rw [h1, h2]

/-! ## Claim theorems for the Pairwise Distance Engine (counts and records) -/

/-- **C1**: for every rectangular alignment and every unordered pair of its
(identifier, sequence) entries, the emitted record counts `usable_positions`
as the number of columns where, after uppercasing, neither base is `-` and
neither base is an ambiguity code, and `snps` as the number of those columns
where the uppercased bases differ. -/
theorem pairwise_counts_characterization
    (sequences : List (String × List Char)) (L : Nat)
    (hrect : ∀ pr ∈ sequences, pr.2.length = L)
    (A B : String) (sA sB : List Char)
    (hA : (A, sA) ∈ sequences) (hB : (B, sB) ∈ sequences)
    (hAB : (A, sA) ≠ (B, sB))
    (records : List PairRecord) (m : List ((String × String) × Nat))
    (names : List String)
    (hres : calculate_pairwise_distances sequences = some (records, m, names)) :
    ∃ r ∈ records,
      ((r.seq1 = A ∧ r.seq2 = B) ∨ (r.seq1 = B ∧ r.seq2 = A)) ∧
      r.usable_positions = (List.range L).countP (usableAt sA sB) ∧
      r.snps = (List.range L).countP (snpAt sA sB) := by
  rw [calc_eq_of_rect sequences L hrect] at hres
  simp only [Option.some.injEq, Prod.mk.injEq] at hres
  obtain ⟨hrec, hm, hnames⟩ := hres
  subst hrec
  rcases mem_forwardPairs_of_ne hA hB hAB with hmem | hmem
  · refine ⟨recordOf L ((A, sA), (B, sB)), List.mem_map.mpr ⟨_, hmem, rfl⟩, ?_, ?_, ?_⟩
    · left
      exact ⟨rfl, rfl⟩
    · rfl
    · rfl
  · refine ⟨recordOf L ((B, sB), (A, sA)), List.mem_map.mpr ⟨_, hmem, rfl⟩, ?_, ?_, ?_⟩
    · right
      exact ⟨rfl, rfl⟩
    · show (List.range L).countP (usableAt sB sA) = (List.range L).countP (usableAt sA sB)
      exact List.countP_congr fun p _ => by rw [usableAt_comm]
    · show (List.range L).countP (snpAt sB sA) = (List.range L).countP (snpAt sA sB)
      exact List.countP_congr fun p _ => by rw [snpAt_comm]

/-- **C3**: every emitted record's identity equals
`100 × (1 − snps/usable_positions)` when `usable_positions > 0` and `0` when
`usable_positions = 0` (a defined value, not an error), and always lies in
`[0, 100]`. -/
theorem identity_formula_and_range
    (sequences : List (String × List Char)) (L : Nat)
    (hrect : ∀ pr ∈ sequences, pr.2.length = L)
    (records : List PairRecord) (m : List ((String × String) × Nat))
    (names : List String)
    (hres : calculate_pairwise_distances sequences = some (records, m, names)) :
    ∀ r ∈ records,
      r.identity = (if r.usable_positions > 0
        then 100 * (1 - (r.snps : ℚ) / (r.usable_positions : ℚ)) else 0) ∧
      0 ≤ r.identity ∧ r.identity ≤ 100 := by
  rw [calc_eq_of_rect sequences L hrect] at hres
  simp only [Option.some.injEq, Prod.mk.injEq] at hres
  obtain ⟨hrec, hm, hnames⟩ := hres
  subst hrec
  intro r hr
  obtain ⟨pr, hpr, rfl⟩ := List.mem_map.mp hr
  have hsnp_le : (List.range L).countP (snpAt pr.1.2 pr.2.2)
      ≤ (List.range L).countP (usableAt pr.1.2 pr.2.2) :=
    List.countP_mono_left fun p _ hp => by
      rw [snpAt, Bool.and_eq_true] at hp
      exact hp.1
  refine ⟨rfl, ?_⟩
  show 0 ≤ (recordOf L pr).identity ∧ (recordOf L pr).identity ≤ 100
  set u := (List.range L).countP (usableAt pr.1.2 pr.2.2) with hu
  set s := (List.range L).countP (snpAt pr.1.2 pr.2.2) with hs
  have hid : (recordOf L pr).identity
      = if u > 0 then 100 * (1 - (s : ℚ) / (u : ℚ)) else 0 := rfl
  rw [hid]
  by_cases hpos : u > 0
  · rw [if_pos hpos]
    have hu0 : (0 : ℚ) < (u : ℚ) := by exact_mod_cast hpos
    have hfrac0 : (0 : ℚ) ≤ (s : ℚ) / (u : ℚ) :=
      div_nonneg (by positivity) (le_of_lt hu0)
    have hfrac1 : (s : ℚ) / (u : ℚ) ≤ 1 :=
      (div_le_one hu0).mpr (by exact_mod_cast hsnp_le)
    constructor <;> nlinarith
  · rw [if_neg hpos]
    norm_num

/-- **C5**: on a rectangular alignment with `n ≥ 2` sequences the engine emits
exactly `n × (n − 1) / 2` pairwise records, one per unordered pair, in the
order of the forward double iteration (`i < j`) over the alignment order. -/
theorem pairwise_records_count_and_order
    (sequences : List (String × List Char)) (L : Nat)
    (hrect : ∀ pr ∈ sequences, pr.2.length = L)
    (_hn : 2 ≤ sequences.length)
    (records : List PairRecord) (m : List ((String × String) × Nat))
    (names : List String)
    (hres : calculate_pairwise_distances sequences = some (records, m, names)) :
    records = (forwardPairs sequences).map (recordOf L) ∧
      records.length = sequences.length * (sequences.length - 1) / 2 := by
  rw [calc_eq_of_rect sequences L hrect] at hres
  simp only [Option.some.injEq, Prod.mk.injEq] at hres
  obtain ⟨hrec, hm, hnames⟩ := hres
  subst hrec
  refine ⟨rfl, ?_⟩
  rw [List.length_map, forwardPairs_length, Nat.choose_two_right]

/-- **C7**: every emitted record of a rectangular alignment of length `L`
satisfies `0 ≤ usable_positions ≤ L` and `0 ≤ snps ≤ usable_positions`. -/
theorem pairwise_counts_bounds
    (sequences : List (String × List Char)) (L : Nat)
    (hrect : ∀ pr ∈ sequences, pr.2.length = L)
    (records : List PairRecord) (m : List ((String × String) × Nat))
    (names : List String)
    (hres : calculate_pairwise_distances sequences = some (records, m, names)) :
    ∀ r ∈ records, 0 ≤ r.usable_positions ∧ r.usable_positions ≤ L ∧
      0 ≤ r.snps ∧ r.snps ≤ r.usable_positions := by
  rw [calc_eq_of_rect sequences L hrect] at hres
  simp only [Option.some.injEq, Prod.mk.injEq] at hres
  obtain ⟨hrec, hm, hnames⟩ := hres
  subst hrec
  intro r hr
  obtain ⟨pr, hpr, rfl⟩ := List.mem_map.mp hr
  refine ⟨Nat.zero_le _, ?_, Nat.zero_le _, ?_⟩
  · show (List.range L).countP (usableAt pr.1.2 pr.2.2) ≤ L
    calc (List.range L).countP (usableAt pr.1.2 pr.2.2)
        ≤ (List.range L).length := List.countP_le_length _
      _ = L := List.length_range L
  · show (List.range L).countP (snpAt pr.1.2 pr.2.2)
        ≤ (List.range L).countP (usableAt pr.1.2 pr.2.2)
    exact List.countP_mono_left fun p _ hp => by
      rw [snpAt, Bool.and_eq_true] at hp
      exact hp.1

/-- **C6**: the three lists returned by the Position Classifier are pairwise
disjoint and contain only column indices below the alignment length. -/
theorem classification_sets_pairwise_disjoint
    (sequences : List (String × List Char)) (L : Nat)
    (hrect : ∀ pr ∈ sequences, pr.2.length = L)
    (d g a : List Nat)
    (hres : find_differences sequences = some (d, g, a)) :
    (∀ p ∈ g, p ∉ a) ∧ (∀ p ∈ g, p ∉ d) ∧ (∀ p ∈ a, p ∉ d) ∧
      (∀ p, p ∈ d ∨ p ∈ g ∨ p ∈ a → p < L) := by
  cases sequences with
  | nil =>
      rw [find_differences] at hres
      simp only [Option.some.injEq, Prod.mk.injEq] at hres
      obtain ⟨rfl, rfl, rfl⟩ := hres
      simp
  | cons hd tl =>
      rw [find_differences_eq (hd :: tl) L hrect (by simp)] at hres
      simp only [Option.some.injEq, Prod.mk.injEq] at hres
      obtain ⟨hd1, hg1, ha1⟩ := hres
      subst hd1
      subst hg1
      subst ha1
      refine ⟨?_, ?_, ?_, ?_⟩
      · intro p hpg hpa
        have h1 := (List.mem_filter.mp hpg).2
        have h2 := (List.mem_filter.mp hpa).2
        rw [beq_iff_eq] at h1 h2
        exact absurd (h1.symm.trans h2) (by decide)
      · intro p hpg hpd
        have h1 := (List.mem_filter.mp hpg).2
        have h2 := (List.mem_filter.mp hpd).2
        rw [beq_iff_eq] at h1 h2
        exact absurd (h1.symm.trans h2) (by decide)
      · intro p hpa hpd
        have h1 := (List.mem_filter.mp hpa).2
        have h2 := (List.mem_filter.mp hpd).2
        rw [beq_iff_eq] at h1 h2
        exact absurd (h1.symm.trans h2) (by decide)
      · intro p hp
        rcases hp with h | h | h <;>
          exact List.mem_range.mp (List.mem_filter.mp h).1

/-! ## Distance-matrix lemmas -/

theorem lastWrite_mem {ws : List ((String × String) × Nat)} {q : String × String} {v : Nat} :
    lastWrite ws q = some v → (q, v) ∈ ws := by
  induction ws with
  | nil => intro h; simp [lastWrite] at h
  | cons w rest ih =>
    obtain ⟨k, v0⟩ := w
    intro h
    rw [lastWrite] at h
    cases hlw : lastWrite rest q with
    | some v2 =>
        rw [hlw] at h
        injection h with h'
        subst h'
        exact List.mem_cons_of_mem _ (ih hlw)
    | none =>
        rw [hlw] at h
        by_cases hk : k = q
        · rw [if_pos hk] at h
          injection h with h'
          subst h'
          subst hk
          exact List.mem_cons_self _ _
        · rw [if_neg hk] at h
          exact absurd h (by simp)

theorem lastWrite_eq_none_iff {ws : List ((String × String) × Nat)} {q : String × String} :
    lastWrite ws q = none ↔ ∀ v, (q, v) ∉ ws := by
  induction ws with
  | nil => simp [lastWrite]
  | cons w rest ih =>
    obtain ⟨k, v0⟩ := w
    rw [lastWrite]
    cases hlw : lastWrite rest q with
    | some v2 =>
        constructor
        · intro h
          exact absurd h (by simp)
        · intro h
          exact absurd (List.mem_cons_of_mem _ (lastWrite_mem hlw)) (h v2)
    | none =>
        have hrest : ∀ v, (q, v) ∉ rest := ih.mp hlw
        by_cases hk : k = q
        · rw [if_pos hk]
          subst hk
          constructor
          · intro h
            exact absurd h (by simp)
          · intro h
            exact absurd (List.mem_cons_self _ _) (h v0)
        · rw [if_neg hk]
          constructor
          · intro _ v hv
            rcases List.mem_cons.mp hv with hEq | hmem
            · apply hk
              have := congrArg Prod.fst hEq
              exact this.symm
            · exact hrest v hmem
          · intro _
            rfl

theorem mem_matrixOf_iff {records : List PairRecord} {X Y : String} {v : Nat} :
    ((X, Y), v) ∈ matrixOf records ↔
      ∃ r ∈ records,
        ((r.seq1 = X ∧ r.seq2 = Y) ∨ (r.seq1 = Y ∧ r.seq2 = X)) ∧ v = r.snps := by
  induction records with
  | nil => simp [matrixOf]
  | cons r rest ih =>
    have hstep : matrixOf (r :: rest)
        = ((r.seq1, r.seq2), r.snps) :: ((r.seq2, r.seq1), r.snps) :: matrixOf rest := rfl
    rw [hstep]
    simp only [List.mem_cons, ih]
    constructor
    · rintro (h | h | h)
      · simp only [Prod.mk.injEq] at h
        exact ⟨r, Or.inl rfl, Or.inl ⟨h.1.1.symm, h.1.2.symm⟩, h.2⟩
      · simp only [Prod.mk.injEq] at h
        exact ⟨r, Or.inl rfl, Or.inr ⟨h.1.2.symm, h.1.1.symm⟩, h.2⟩
      · obtain ⟨r2, hr2, hor, hv⟩ := h
        exact ⟨r2, Or.inr hr2, hor, hv⟩
    · rintro ⟨r2, hr2, hor, hv⟩
      rcases hr2 with rfl | hmem
      · rcases hor with ⟨h1, h2⟩ | ⟨h1, h2⟩
        · left
          rw [h1, h2, hv]
        · right
          left
          rw [h1, h2, hv]
      · right
        right
        exact ⟨r2, hmem, hor, hv⟩

theorem forwardPairs_fst_ne {l : List (String × List Char)}
    (hnd : (l.map Prod.fst).Nodup) {x y : String × List Char}
    (h : (x, y) ∈ forwardPairs l) : x.1 ≠ y.1 := by
  induction l with
  | nil => simp [forwardPairs] at h
  | cons z zs ih =>
    rw [List.map_cons, List.nodup_cons] at hnd
    rw [forwardPairs, List.mem_append] at h
    rcases h with h | h
    · rw [List.mem_map] at h
      obtain ⟨w, hw, hEq⟩ := h
      injection hEq with h1 h2
      intro hxy
      apply hnd.1
      rw [h1, hxy, ← h2]
      exact List.mem_map.mpr ⟨w, hw, rfl⟩
    · exact ih hnd.2 h

theorem nodup_keys_snd_eq {l : List (String × List Char)}
    (hnd : (l.map Prod.fst).Nodup) {k : String} {v1 v2 : List Char}
    (h1 : (k, v1) ∈ l) (h2 : (k, v2) ∈ l) : v1 = v2 := by
  induction l with
  | nil => simp at h1
  | cons z zs ih =>
    rw [List.map_cons, List.nodup_cons] at hnd
    rcases List.mem_cons.mp h1 with hEq1 | hm1 <;>
      rcases List.mem_cons.mp h2 with hEq2 | hm2
    · rw [← hEq1] at hEq2
      injection hEq2 with _ hv
      exact hv.symm
    · exfalso
      apply hnd.1
      have hz : z.1 = k := by rw [← hEq1]
      rw [hz]
      exact List.mem_map.mpr ⟨(k, v2), hm2, rfl⟩
    · exfalso
      apply hnd.1
      have hz : z.1 = k := by rw [← hEq2]
      rw [hz]
      exact List.mem_map.mpr ⟨(k, v1), hm1, rfl⟩
    · exact ih hnd.2 hm1 hm2

/-- **C4**: on a rectangular alignment with distinct identifiers, the distance
matrix is symmetric: for distinct identifiers `A`, `B` of the alignment the
entries under `(A, B)` and `(B, A)` are both present and both equal the SNP
count of the pair, and no diagonal entry `(C, C)` is ever written. -/
theorem distance_matrix_symmetric
    (sequences : List (String × List Char)) (L : Nat)
    (hrect : ∀ pr ∈ sequences, pr.2.length = L)
    (hnd : (sequences.map Prod.fst).Nodup)
    (A B : String) (sA sB : List Char)
    (hA : (A, sA) ∈ sequences) (hB : (B, sB) ∈ sequences) (hAB : A ≠ B)
    (records : List PairRecord) (m : List ((String × String) × Nat))
    (names : List String)
    (hres : calculate_pairwise_distances sequences = some (records, m, names)) :
    (∃ s, lastWrite m (A, B) = some s ∧ lastWrite m (B, A) = some s ∧
        s = (List.range L).countP (snpAt sA sB)) ∧
    (∀ C : String, lastWrite m (C, C) = none) := by
  rw [calc_eq_of_rect sequences L hrect] at hres
  simp only [Option.some.injEq, Prod.mk.injEq] at hres
  obtain ⟨hrec, hm, hnames⟩ := hres
  subst hrec
  subst hm
  have key : ∀ (X Y : String) (sX sY : List Char),
      (X, sX) ∈ sequences → (Y, sY) ∈ sequences → ∀ v,
      ((X, Y), v) ∈ matrixOf ((forwardPairs sequences).map (recordOf L)) →
      v = (List.range L).countP (snpAt sX sY) := by
    intro X Y sX sY hX hY v hv
    obtain ⟨r, hr, hor, hveq⟩ := mem_matrixOf_iff.mp hv
    obtain ⟨pr, hpr, rfl⟩ := List.mem_map.mp hr
    obtain ⟨x, y⟩ := pr
    have hxy := mem_of_mem_forwardPairs hpr
    rcases hor with ⟨h1, h2⟩ | ⟨h1, h2⟩
    · have hxseq : (X, x.2) ∈ sequences := by
        rw [show X = x.1 from h1.symm]
        exact hxy.1
      have hyseq : (Y, y.2) ∈ sequences := by
        rw [show Y = y.1 from h2.symm]
        exact hxy.2
      have hx2 : x.2 = sX := nodup_keys_snd_eq hnd hxseq hX
      have hy2 : y.2 = sY := nodup_keys_snd_eq hnd hyseq hY
      rw [hveq]
      show (List.range L).countP (snpAt x.2 y.2) = _
      rw [hx2, hy2]
    · have hxseq : (Y, x.2) ∈ sequences := by
        rw [show Y = x.1 from h1.symm]
        exact hxy.1
      have hyseq : (X, y.2) ∈ sequences := by
        rw [show X = y.1 from h2.symm]
        exact hxy.2
      have hx2 : x.2 = sY := nodup_keys_snd_eq hnd hxseq hY
      have hy2 : y.2 = sX := nodup_keys_snd_eq hnd hyseq hX
      rw [hveq]
      show (List.range L).countP (snpAt x.2 y.2) = _
      rw [hx2, hy2]
      exact List.countP_congr fun p _ => by rw [snpAt_comm]
  constructor
  · have hne' : (A, sA) ≠ (B, sB) := fun h => hAB (congrArg Prod.fst h)
    have hmemAB : ∃ v, ((A, B), v) ∈ matrixOf ((forwardPairs sequences).map (recordOf L)) := by
      rcases mem_forwardPairs_of_ne hA hB hne' with hmem | hmem
      · exact ⟨(recordOf L ((A, sA), (B, sB))).snps,
          mem_matrixOf_iff.mpr ⟨_, List.mem_map.mpr ⟨_, hmem, rfl⟩,
            Or.inl ⟨rfl, rfl⟩, rfl⟩⟩
      · exact ⟨(recordOf L ((B, sB), (A, sA))).snps,
          mem_matrixOf_iff.mpr ⟨_, List.mem_map.mpr ⟨_, hmem, rfl⟩,
            Or.inr ⟨rfl, rfl⟩, rfl⟩⟩
    have hmemBA : ∃ v, ((B, A), v) ∈ matrixOf ((forwardPairs sequences).map (recordOf L)) := by
      rcases mem_forwardPairs_of_ne hA hB hne' with hmem | hmem
      · exact ⟨(recordOf L ((A, sA), (B, sB))).snps,
          mem_matrixOf_iff.mpr ⟨_, List.mem_map.mpr ⟨_, hmem, rfl⟩,
            Or.inr ⟨rfl, rfl⟩, rfl⟩⟩
      · exact ⟨(recordOf L ((B, sB), (A, sA))).snps,
          mem_matrixOf_iff.mpr ⟨_, List.mem_map.mpr ⟨_, hmem, rfl⟩,
            Or.inl ⟨rfl, rfl⟩, rfl⟩⟩
    have hABnn : lastWrite (matrixOf ((forwardPairs sequences).map (recordOf L))) (A, B) ≠ none := by
      intro hcon
      rw [lastWrite_eq_none_iff] at hcon
      obtain ⟨v, hv⟩ := hmemAB
      exact hcon v hv
    have hBAnn : lastWrite (matrixOf ((forwardPairs sequences).map (recordOf L))) (B, A) ≠ none := by
      intro hcon
      rw [lastWrite_eq_none_iff] at hcon
      obtain ⟨v, hv⟩ := hmemBA
      exact hcon v hv
    obtain ⟨vAB, hvAB⟩ := Option.ne_none_iff_exists.mp hABnn
    obtain ⟨vBA, hvBA⟩ := Option.ne_none_iff_exists.mp hBAnn
    have hvABval : vAB = (List.range L).countP (snpAt sA sB) :=
      key A B sA sB hA hB vAB (lastWrite_mem hvAB.symm)
    have hvBAval : vBA = (List.range L).countP (snpAt sA sB) := by
      have := key B A sB sA hB hA vBA (lastWrite_mem hvBA.symm)
      rw [this]
      exact List.countP_congr fun p _ => by rw [snpAt_comm]
    refine ⟨(List.range L).countP (snpAt sA sB), ?_, ?_, rfl⟩
    · rw [← hvAB, hvABval]
    · rw [← hvBA, hvBAval]
  · intro C
    rw [lastWrite_eq_none_iff]
    intro v hv
    obtain ⟨r, hr, hor, _⟩ := mem_matrixOf_iff.mp hv
    obtain ⟨pr, hpr, rfl⟩ := List.mem_map.mp hr
    obtain ⟨x, y⟩ := pr
    have hne2 := forwardPairs_fst_ne hnd hpr
    rcases hor with ⟨h1, h2⟩ | ⟨h1, h2⟩ <;> exact hne2 (h1.trans h2.symm)

/-! ## Concrete evaluations on the spec's worked example -/

theorem eval_classifier_example :
    find_differences exampleAlignment = some ([2], [4], [5]) := by decide

theorem eval_engine_example :
    calculate_pairwise_distances exampleAlignment
      = some ([exampleRecord],
              [(("s1", "s2"), 1), (("s2", "s1"), 1)], ["s1", "s2"]) := by
  have hscan : pairScan "ACGT-N".toList "ACTTAN".toList (0, 0) = some (4, 1) := by
    decide
  have hpp : processPair (("s1", "ACGT-N".toList), ("s2", "ACTTAN".toList))
      = some exampleRecord := by
    rw [processPair, hscan]
    simp only [Option.some.injEq, exampleRecord, PairRecord.mk.injEq]
    norm_num
  have hfp : forwardPairs exampleAlignment
      = [(("s1", "ACGT-N".toList), ("s2", "ACTTAN".toList))] := by decide
  rw [calculate_pairwise_distances, hfp, collectRecords, hpp, collectRecords]
  rfl

/-- **C8** counterexample: invoked on a one-sequence alignment,
`calculate_pairwise_distances` raises nothing — the double loop body never
runs, and the function returns normally with an empty pairwise list, an empty
matrix, and the singleton name list.  No `InsufficientSequencesError` (nor any
other error) exists anywhere in the source, so no alignment makes the call
raise one. -/
theorem singleton_alignment_returns_normally :
    calculate_pairwise_distances [("s1", ['A'])] = some ([], [], ["s1"]) := rfl

/-- **C8** amended: invoked with fewer than 2 sequences the engine raises no
error: it returns an empty pairwise record list and an empty matrix (the
Streamlit caller is the one that rejects such inputs, before invoking the
engine). -/
theorem calculate_pairwise_distances_lt_two
    (sequences : List (String × List Char)) (h : sequences.length < 2) :
    calculate_pairwise_distances sequences = some ([], [], sequences.map Prod.fst) := by
  match sequences, h with
  | [], _ => rfl
  | [pr], _ => rfl

/-- **C9**: the concrete worked example of the spec: alignment
`{"s1": "ACGT-N", "s2": "ACTTAN"}` yields variant positions `{2}`, gap
positions `{4}`, ambiguous positions `{5}`, and the single pairwise record has
`usable_positions = 4`, `snps = 1`, `identity = 75` (i.e. 75.00%), with the
symmetric matrix entries both 1. -/
theorem concrete_example_classification_and_distances :
    find_differences exampleAlignment = some ([2], [4], [5]) ∧
    calculate_pairwise_distances exampleAlignment
      = some ([exampleRecord],
              [(("s1", "s2"), 1), (("s2", "s1"), 1)], ["s1", "s2"]) ∧
    exampleRecord.usable_positions = 4 ∧ exampleRecord.snps = 1 ∧
    exampleRecord.identity = 75 :=
  ⟨eval_classifier_example, eval_engine_example, rfl, rfl, rfl⟩

/-- **C10**: under the rectangularity precondition every character access of
`find_differences` and `calculate_pairwise_distances` is in bounds: in this
total embedding, where an out-of-bounds read would produce `none` (Python's
`IndexError`), both functions return `some`. -/
theorem no_index_errors
    (sequences : List (String × List Char)) (L : Nat)
    (hrect : ∀ pr ∈ sequences, pr.2.length = L) :
    (find_differences sequences).isSome = true ∧
    (calculate_pairwise_distances sequences).isSome = true := by
  constructor
  · cases sequences with
    | nil => rfl
    | cons hd tl =>
        rw [find_differences_eq (hd :: tl) L hrect (by simp)]
        rfl
  · rw [calc_eq_of_rect sequences L hrect]
    rfl

/-! ## Witnesses: each hypothesis-bearing claim theorem applied at the
worked example -/

/-- Witness for the C1 theorem at the worked example. -/
theorem pairwise_counts_characterization_witness :
    (∀ pr ∈ exampleAlignment, pr.2.length = 6) ∧
    ("s1", "ACGT-N".toList) ∈ exampleAlignment ∧
    ("s2", "ACTTAN".toList) ∈ exampleAlignment ∧
    ("s1", "ACGT-N".toList) ≠ ("s2", "ACTTAN".toList) ∧
    (∃ r ∈ [exampleRecord],
      ((r.seq1 = "s1" ∧ r.seq2 = "s2") ∨ (r.seq1 = "s2" ∧ r.seq2 = "s1")) ∧
      r.usable_positions
        = (List.range 6).countP (usableAt "ACGT-N".toList "ACTTAN".toList) ∧
      r.snps = (List.range 6).countP (snpAt "ACGT-N".toList "ACTTAN".toList)) :=
  ⟨by decide, by decide, by decide, by decide,
    pairwise_counts_characterization exampleAlignment 6 (by decide)
      "s1" "s2" "ACGT-N".toList "ACTTAN".toList (by decide) (by decide) (by decide)
      [exampleRecord] [(("s1", "s2"), 1), (("s2", "s1"), 1)] ["s1", "s2"]
      eval_engine_example⟩

/-- Witness for the C2 theorem at the worked example, column 4 (the gap
column). -/
theorem find_differences_classification_witness :
    exampleAlignment ≠ [] ∧ (∀ pr ∈ exampleAlignment, pr.2.length = 6) ∧ (4 : Nat) < 6 ∧
    (∃ d g a, find_differences exampleAlignment = some (d, g, a) ∧
      (4 ∈ g ↔ ∃ pr ∈ exampleAlignment, pr.2.getD 4 ' ' = '-') ∧
      (4 ∈ a ↔ ¬(∃ pr ∈ exampleAlignment, pr.2.getD 4 ' ' = '-') ∧
        ∃ pr ∈ exampleAlignment, (pr.2.getD 4 ' ').toUpper ∈ ambiguity_codes) ∧
      (4 ∈ d ↔ ¬(∃ pr ∈ exampleAlignment, pr.2.getD 4 ' ' = '-') ∧
        ¬(∃ pr ∈ exampleAlignment, (pr.2.getD 4 ' ').toUpper ∈ ambiguity_codes) ∧
        ∃ pr1 ∈ exampleAlignment, ∃ pr2 ∈ exampleAlignment,
          (pr1.2.getD 4 ' ').toUpper ≠ (pr2.2.getD 4 ' ').toUpper)) :=
  ⟨by decide, by decide, by decide,
    find_differences_classification exampleAlignment 6 (by decide) (by decide)
      4 (by decide)⟩

/-- Witness for the C3 theorem at the worked example. -/
theorem identity_formula_and_range_witness :
    (∀ pr ∈ exampleAlignment, pr.2.length = 6) ∧
    (∀ r ∈ [exampleRecord],
      r.identity = (if r.usable_positions > 0
        then 100 * (1 - (r.snps : ℚ) / (r.usable_positions : ℚ)) else 0) ∧
      0 ≤ r.identity ∧ r.identity ≤ 100) :=
  ⟨by decide,
    identity_formula_and_range exampleAlignment 6 (by decide)
      [exampleRecord] [(("s1", "s2"), 1), (("s2", "s1"), 1)] ["s1", "s2"]
      eval_engine_example⟩

/-- Witness for the C4 theorem at the worked example. -/
theorem distance_matrix_symmetric_witness :
    (∀ pr ∈ exampleAlignment, pr.2.length = 6) ∧
    (exampleAlignment.map Prod.fst).Nodup ∧
    ("s1", "ACGT-N".toList) ∈ exampleAlignment ∧
    ("s2", "ACTTAN".toList) ∈ exampleAlignment ∧
    "s1" ≠ "s2" ∧
    ((∃ s, lastWrite [(("s1", "s2"), 1), (("s2", "s1"), 1)] ("s1", "s2") = some s ∧
        lastWrite [(("s1", "s2"), 1), (("s2", "s1"), 1)] ("s2", "s1") = some s ∧
        s = (List.range 6).countP (snpAt "ACGT-N".toList "ACTTAN".toList)) ∧
      (∀ C : String,
        lastWrite [(("s1", "s2"), 1), (("s2", "s1"), 1)] (C, C) = none)) :=
  ⟨by decide, by decide, by decide, by decide, by decide,
    distance_matrix_symmetric exampleAlignment 6 (by decide) (by decide)
      "s1" "s2" "ACGT-N".toList "ACTTAN".toList (by decide) (by decide) (by decide)
      [exampleRecord] [(("s1", "s2"), 1), (("s2", "s1"), 1)] ["s1", "s2"]
      eval_engine_example⟩

/-- Witness for the C5 theorem at the worked example. -/
theorem pairwise_records_count_and_order_witness :
    (∀ pr ∈ exampleAlignment, pr.2.length = 6) ∧ 2 ≤ exampleAlignment.length ∧
    ([exampleRecord] = (forwardPairs exampleAlignment).map (recordOf 6) ∧
      [exampleRecord].length
        = exampleAlignment.length * (exampleAlignment.length - 1) / 2) :=
  ⟨by decide, by decide,
    pairwise_records_count_and_order exampleAlignment 6 (by decide) (by decide)
      [exampleRecord] [(("s1", "s2"), 1), (("s2", "s1"), 1)] ["s1", "s2"]
      eval_engine_example⟩

/-- Witness for the C6 theorem at the worked example. -/
theorem classification_sets_pairwise_disjoint_witness :
    (∀ pr ∈ exampleAlignment, pr.2.length = 6) ∧
    find_differences exampleAlignment = some ([2], [4], [5]) ∧
    ((∀ p ∈ [4], p ∉ [5]) ∧ (∀ p ∈ [4], p ∉ [2]) ∧ (∀ p ∈ [5], p ∉ [2]) ∧
      (∀ p : Nat, p ∈ [2] ∨ p ∈ [4] ∨ p ∈ [5] → p < 6)) :=
  ⟨by decide, eval_classifier_example,
    classification_sets_pairwise_disjoint exampleAlignment 6 (by decide)
      [2] [4] [5] eval_classifier_example⟩

/-- Witness for the C7 theorem at the worked example. -/
theorem pairwise_counts_bounds_witness :
    (∀ pr ∈ exampleAlignment, pr.2.length = 6) ∧
    (∀ r ∈ [exampleRecord], 0 ≤ r.usable_positions ∧ r.usable_positions ≤ 6 ∧
      0 ≤ r.snps ∧ r.snps ≤ r.usable_positions) :=
  ⟨by decide,
    pairwise_counts_bounds exampleAlignment 6 (by decide)
      [exampleRecord] [(("s1", "s2"), 1), (("s2", "s1"), 1)] ["s1", "s2"]
      eval_engine_example⟩

/-- Witness for the amended C8 theorem at a one-sequence alignment. -/
theorem calculate_pairwise_distances_lt_two_witness :
    ([("s1", ['A'])] : List (String × List Char)).length < 2 ∧
    calculate_pairwise_distances [("s1", ['A'])] = some ([], [], ["s1"]) :=
  ⟨by decide, calculate_pairwise_distances_lt_two [("s1", ['A'])] (by decide)⟩

/-- Witness for the C10 theorem at the worked example. -/
theorem no_index_errors_witness :
    (∀ pr ∈ exampleAlignment, pr.2.length = 6) ∧
    ((find_differences exampleAlignment).isSome = true ∧
      (calculate_pairwise_distances exampleAlignment).isSome = true) :=
  ⟨by decide, no_index_errors exampleAlignment 6 (by decide)⟩
